import Mathlib

/-!
Verification of the Vulkan device-memory sub-allocator
(src/video_core/vulkan_common/vulkan_memory_allocator.cpp).

The C++ code is shallowly embedded: `u64`/`u32`/`VkDeviceSize` values are
modelled as `Nat` (all quantities involved stay far below `2^64` in every
claim considered, so wrap-around never matters), `std::optional` as
`Option`, `std::vector<Range>` as `List Range`, and fatal paths
(`ASSERT_MSG`, `UNREACHABLE_MSG`, `std::optional::value()` on an empty
optional) as a `none` outcome of an `Option`-returning function.
-/

namespace VMA

/-- Vulkan memory property flag bits (external interface constants from the
Vulkan headers). -/
def VK_MEMORY_PROPERTY_DEVICE_LOCAL_BIT : Nat := 1

/-- Vulkan memory property flag bit: host visible. -/
def VK_MEMORY_PROPERTY_HOST_VISIBLE_BIT : Nat := 2

/-- Vulkan memory property flag bit: host coherent. -/
def VK_MEMORY_PROPERTY_HOST_COHERENT_BIT : Nat := 4

/-- Vulkan memory property flag bit: host cached. -/
def VK_MEMORY_PROPERTY_HOST_CACHED_BIT : Nat := 8

/-- `struct Range { u64 begin; u64 end; }`.  `begin`/`end` are reserved
words in Lean, so the fields are named `lo`/`hi`. -/
structure Range where
  lo : Nat
  hi : Nat
deriving DecidableEq, Repr

/-- `Range::Contains(iterator, size)`:
`iterator < end && begin < iterator + size`. -/
def Range.Contains (r : Range) (iterator size : Nat) : Bool :=
  iterator < r.hi && r.lo < iterator + size

/-- Modelled from the spec: `Common::AlignUp(value, n)` (common/alignment.h
is not among the sources); §4.1 describes it as rounding up to the next
multiple of `n`, i.e. the least multiple of `n` that is `≥ value`. -/
def alignUp (value n : Nat) : Nat :=
  (value + n - 1) / n * n

/-- Modelled from the spec: `Common::AlignUpLog2(value, k)`
(common/alignment.h is not among the sources); §4.2 describes it as
advancing to the next `2^k`-aligned offset at or after `value`. -/
def alignUpLog2 (value k : Nat) : Nat :=
  (value + (1 <<< k) - 1) >>> k <<< k

/-- The static table `sizes` of `AllocationChunkSize`, in bytes
(`0x1000ULL << 10`, ..., `0x20000ULL << 10`). -/
def sizes : List Nat :=
  [0x1000 <<< 10, 0x1400 <<< 10, 0x1800 <<< 10, 0x1c00 <<< 10, 0x2000 <<< 10,
   0x3200 <<< 10, 0x4000 <<< 10, 0x6000 <<< 10, 0x8000 <<< 10, 0xA000 <<< 10,
   0x10000 <<< 10, 0x18000 <<< 10, 0x20000 <<< 10]

/-- `AllocationChunkSize(required_size)`: `std::ranges::lower_bound` returns
the first table entry `≥ required_size`; if there is none the result is
`Common::AlignUp(required_size, 4ULL << 20)`. -/
def AllocationChunkSize (required_size : Nat) : Nat :=
  match sizes.find? (fun s => Nat.ble required_size s) with
  | some s => s
  | none => alignUp required_size (4 <<< 20)

/-- `enum class MemoryUsage { DeviceLocal, Upload, Download }`. -/
inductive MemoryUsage where
  | DeviceLocal
  | Upload
  | Download
deriving DecidableEq, Repr

/-- `MemoryUsagePropertyFlags(usage)`. -/
def MemoryUsagePropertyFlags : MemoryUsage → Nat
  | .DeviceLocal => VK_MEMORY_PROPERTY_DEVICE_LOCAL_BIT
  | .Upload =>
      VK_MEMORY_PROPERTY_HOST_VISIBLE_BIT ||| VK_MEMORY_PROPERTY_HOST_COHERENT_BIT
  | .Download =>
      VK_MEMORY_PROPERTY_HOST_VISIBLE_BIT ||| VK_MEMORY_PROPERTY_HOST_COHERENT_BIT |||
      VK_MEMORY_PROPERTY_HOST_CACHED_BIT

/-- The loop of `MemoryAllocation::FindFreeRegion(size, alignment)`,
recursing over the tail of `commits` still to be examined.  The loop state
is `(candidate, iterator)`; the `while` condition is
`iterator + size <= allocation_size`, and reaching `commits.end()` inside
the loop breaks with the current candidate. -/
def findLoop (allocation_size size k : Nat) :
    List Range → Option Nat → Nat → Option Nat
  | [], candidate, iterator =>
      if iterator + size ≤ allocation_size then
        some (candidate.getD iterator)
      else candidate
  | r :: rest, candidate, iterator =>
      if iterator + size ≤ allocation_size then
        findLoop allocation_size size k rest
          (if r.Contains (candidate.getD iterator) size then none
           else some (candidate.getD iterator))
          (alignUpLog2 r.hi k)
      else candidate

/-- Base-2 logarithm by structural recursion on a fuel argument (so that it
reduces inside the kernel); `log2Fuel fuel n = Nat.log2 n` whenever
`n ≤ fuel`. -/
def log2Fuel : Nat → Nat → Nat
  | 0, _ => 0
  | fuel + 1, n => if 2 ≤ n then log2Fuel fuel (n / 2) + 1 else 0

/-- Base-2 logarithm; agrees with `Nat.log2`. -/
def log2c (n : Nat) : Nat := log2Fuel n n

/-- `MemoryAllocation::FindFreeRegion(size, alignment)`.  The C++ asserts
`std::has_single_bit(alignment)` and computes
`alignment_log2 = std::countr_zero(alignment)`; for a power of two this is
the base-2 logarithm. -/
def FindFreeRegion (commits : List Range) (allocation_size size alignment : Nat) :
    Option Nat :=
  findLoop allocation_size size (log2c alignment) commits none 0

/-- Insertion at `std::ranges::upper_bound(commits, begin, {}, &Range::begin)`:
the new range goes right before the first stored range whose `begin` is
strictly greater. -/
def insertRange : List Range → Range → List Range
  | [], r => [r]
  | x :: xs, r => if r.lo < x.lo then r :: x :: xs else x :: insertRange xs r

/-- `std::ranges::find(commits, begin, &Range::begin)` followed by
`ASSERT_MSG(it != commits.end())` and `commits.erase(it)`: `none` models the
fatal assertion. -/
def freeList : List Range → Nat → Option (List Range)
  | [], _ => none
  | r :: rest, b => if r.lo = b then some rest else (freeList rest b).map (r :: ·)

/-- The state of one `MemoryAllocation` (a Block): its immutable property
flags, shifted memory type bit, size, and the ordered list of committed
ranges.  The Vulkan handles carry no allocator-relevant state. -/
structure MemoryAllocation where
  property_flags : Nat
  shifted_memory_type : Nat
  allocation_size : Nat
  commits : List Range
deriving DecidableEq, Repr

/-- `MemoryAllocation::Commit(size, alignment)`: on success returns the new
`(begin, end)` interval together with the updated allocation. -/
def MemoryAllocation.Commit (a : MemoryAllocation) (size alignment : Nat) :
    Option ((Nat × Nat) × MemoryAllocation) :=
  match FindFreeRegion a.commits a.allocation_size size alignment with
  | none => none
  | some c =>
      some ((c, c + size),
        { a with commits := insertRange a.commits ⟨c, c + size⟩ })

/-- `MemoryAllocation::Free(begin)`; `none` models the fatal
`ASSERT_MSG(it != commits.end(), "Invalid commit")`. -/
def MemoryAllocation.Free (a : MemoryAllocation) (b : Nat) :
    Option MemoryAllocation :=
  (freeList a.commits b).map (fun l => { a with commits := l })

/-- `MemoryAllocation::IsCompatible(flags, type_mask)`:
`(flags & property_flags) && (type_mask & shifted_memory_type) != 0`. -/
def MemoryAllocation.IsCompatible (a : MemoryAllocation) (flags type_mask : Nat) :
    Bool :=
  (Nat.land flags a.property_flags != 0) &&
  (Nat.land type_mask a.shifted_memory_type != 0)

/-- `VkMemoryRequirements`. -/
structure VkMemoryRequirements where
  size : Nat
  alignment : Nat
  memoryTypeBits : Nat
deriving DecidableEq, Repr

/-- The loop body of `MemoryAllocator::FindType(flags, type_mask)`, scanning
the device's memory-type table (the list of each type's `propertyFlags`)
from index `i` upward. -/
def findTypeFrom (flags type_mask : Nat) : List Nat → Nat → Option Nat
  | [], _ => none
  | t :: rest, i =>
      if (Nat.land type_mask (1 <<< i) != 0) && (Nat.land t flags != 0) then
        some i
      else findTypeFrom flags type_mask rest (i + 1)

/-- `MemoryAllocator::FindType(flags, type_mask)`. -/
def FindType (types : List Nat) (flags type_mask : Nat) : Option Nat :=
  findTypeFrom flags type_mask types 0

/-- `MemoryAllocator::MemoryPropertyFlags(type_mask, flags)` (the flag
degradation policy).  `flags & ~BIT` equals `flags - (flags & BIT)` for a
single-bit `BIT`; `none` models the fatal
`UNREACHABLE_MSG("No compatible memory types found")`. -/
def MemoryPropertyFlags (types : List Nat) (type_mask : Nat) (flags : Nat) :
    Option Nat :=
  if (FindType types flags type_mask).isSome then
    some flags
  else if h8 : Nat.land flags VK_MEMORY_PROPERTY_HOST_CACHED_BIT ≠ 0 then
    MemoryPropertyFlags types type_mask
      (flags - Nat.land flags VK_MEMORY_PROPERTY_HOST_CACHED_BIT)
  else if h1 : Nat.land flags VK_MEMORY_PROPERTY_DEVICE_LOCAL_BIT ≠ 0 then
    MemoryPropertyFlags types type_mask
      (flags - Nat.land flags VK_MEMORY_PROPERTY_DEVICE_LOCAL_BIT)
  else none
termination_by flags
decreasing_by
  · have hf : flags ≠ 0 := by
      rintro rfl
      exact h8 (Nat.zero_and _)
    exact Nat.sub_lt (Nat.pos_of_ne_zero hf) (Nat.pos_of_ne_zero h8)
  · have hf : flags ≠ 0 := by
      rintro rfl
      exact h1 (Nat.zero_and _)
    exact Nat.sub_lt (Nat.pos_of_ne_zero hf) (Nat.pos_of_ne_zero h1)

/-- `MemoryAllocator::TryCommit(requirements, flags)`: scan the allocations
in order, skipping incompatible ones, and return the first successful
per-allocation commit together with the updated allocation list. -/
def TryCommit (allocs : List MemoryAllocation) (req : VkMemoryRequirements)
    (flags : Nat) : Option ((Nat × Nat) × List MemoryAllocation) :=
  match allocs with
  | [] => none
  | a :: rest =>
      if a.IsCompatible flags req.memoryTypeBits then
        match a.Commit req.size req.alignment with
        | some (iv, a') => some (iv, a' :: rest)
        | none =>
            (TryCommit rest req flags).map (fun p => (p.1, a :: p.2))
      else
        (TryCommit rest req flags).map (fun p => (p.1, a :: p.2))

/-- `MemoryAllocator::AllocMemory(flags, type_mask, size)`: pick the type via
`FindType(flags, type_mask).value()` (`none` models the fatal empty
`value()`), allocate device memory of the given size and append a fresh
`MemoryAllocation` with no commits. -/
def AllocMemory (types : List Nat) (allocs : List MemoryAllocation)
    (flags type_mask size : Nat) : Option (List MemoryAllocation) :=
  (FindType types flags type_mask).map (fun type =>
    allocs ++ [⟨flags, 1 <<< type, size, []⟩])

/-- `MemoryAllocator::Commit(requirements, usage)`: resolve the property
flags, try the existing allocations, and on total miss allocate one chunk of
`AllocationChunkSize(requirements.size)` bytes and retry exactly once
(`TryCommit(...).value()`; `none` models every fatal path). -/
def MemoryAllocatorCommit (types : List Nat) (allocs : List MemoryAllocation)
    (req : VkMemoryRequirements) (usage : MemoryUsage) :
    Option ((Nat × Nat) × List MemoryAllocation) :=
  match MemoryPropertyFlags types req.memoryTypeBits (MemoryUsagePropertyFlags usage) with
  | none => none
  | some flags =>
      match TryCommit allocs req flags with
      | some r => some r
      | none =>
          match AllocMemory types allocs flags req.memoryTypeBits
              (AllocationChunkSize req.size) with
          | none => none
          | some allocs' => TryCommit allocs' req flags

/-! ### Arithmetic facts about the alignment helpers -/

theorem le_alignUp (v : Nat) {n : Nat} (hn : 0 < n) : v ≤ alignUp v n := by
  unfold alignUp
  rw [Nat.mul_comm]
  have h1 := Nat.div_add_mod (v + n - 1) n
  have h2 := Nat.mod_lt (v + n - 1) hn
  omega

theorem alignUp_dvd (v n : Nat) : n ∣ alignUp v n :=
  dvd_mul_left n _

theorem alignUp_le {v c n : Nat} (hn : 0 < n) (hd : n ∣ c) (hvc : v ≤ c) :
    alignUp v n ≤ c := by
  obtain ⟨m, rfl⟩ := hd
  unfold alignUp
  have h1 : v + n - 1 ≤ n * m + (n - 1) := by omega
  have h2 : (v + n - 1) / n ≤ m := by
    calc (v + n - 1) / n ≤ (n * m + (n - 1)) / n := Nat.div_le_div_right h1
      _ = m + (n - 1) / n := Nat.mul_add_div hn m (n - 1)
      _ = m := by rw [Nat.div_eq_of_lt (by omega)]; omega
  calc (v + n - 1) / n * n ≤ m * n := Nat.mul_le_mul_right n h2
    _ = n * m := Nat.mul_comm m n

theorem alignUp_lt_add {v n : Nat} (hn : 0 < n) : alignUp v n < v + n := by
  unfold alignUp
  have := Nat.div_mul_le_self (v + n - 1) n
  omega

theorem alignUp_mono {v w : Nat} (n : Nat) (h : v ≤ w) :
    alignUp v n ≤ alignUp w n :=
  Nat.mul_le_mul_right n (Nat.div_le_div_right (by omega))

theorem alignUpLog2_eq (v k : Nat) : alignUpLog2 v k = alignUp v (2 ^ k) := by
  unfold alignUpLog2 alignUp
  rw [Nat.one_shiftLeft, Nat.shiftRight_eq_div_pow, Nat.shiftLeft_eq]

/-! ### The lower-bound search of `AllocationChunkSize` -/

theorem find?_ble_some {l : List Nat} {x s : Nat}
    (h : l.find? (fun t => Nat.ble x t) = some s) : x ≤ s ∧ s ∈ l := by
  refine ⟨?_, List.mem_of_find?_eq_some h⟩
  have := List.find?_some h
  simpa using this

theorem find?_ble_none {l : List Nat} {x : Nat}
    (h : l.find? (fun t => Nat.ble x t) = none) : ∀ s ∈ l, s < x := by
  intro s hs
  have := List.find?_eq_none.mp h s hs
  simpa using this

theorem find?_ble_min {l : List Nat} (hs : l.Pairwise (· ≤ ·)) {x s : Nat}
    (h : l.find? (fun t => Nat.ble x t) = some s) :
    ∀ t ∈ l, x ≤ t → s ≤ t := by
  induction l with
  | nil => simp at h
  | cons y ys ih =>
    rcases List.pairwise_cons.mp hs with ⟨hy, hys⟩
    intro t ht hxt
    rw [List.find?_cons] at h
    cases hble : Nat.ble x y with
    | true =>
      simp only [hble] at h
      injection h with h
      subst h
      rcases List.mem_cons.mp ht with rfl | ht'
      · exact le_refl t
      · exact hy t ht'
    | false =>
      simp only [hble] at h
      have hxy : ¬ x ≤ y := by
        rw [← Nat.ble_eq]
        simp [hble]
      rcases List.mem_cons.mp ht with rfl | ht'
      · exact absurd hxt hxy
      · exact ih hys h t ht' hxt

theorem chunk_of_find?_some {x s : Nat}
    (h : sizes.find? (fun t => Nat.ble x t) = some s) :
    AllocationChunkSize x = s := by
  unfold AllocationChunkSize
  rw [h]

theorem chunk_of_find?_none {x : Nat}
    (h : sizes.find? (fun t => Nat.ble x t) = none) :
    AllocationChunkSize x = alignUp x (4 <<< 20) := by
  unfold AllocationChunkSize
  rw [h]

theorem sizes_sorted : sizes.Pairwise (· ≤ ·) := by decide

theorem sizes_max_mem : (0x8000000 : Nat) ∈ sizes := by decide

theorem sizes_le_max : ∀ s ∈ sizes, s ≤ 0x8000000 := by decide

theorem chunk_ge (x : Nat) : x ≤ AllocationChunkSize x := by
  cases hx : sizes.find? (fun t => Nat.ble x t) with
  | some sx =>
    rw [chunk_of_find?_some hx]
    exact (find?_ble_some hx).1
  | none =>
    rw [chunk_of_find?_none hx]
    exact le_alignUp x (by decide)

/-- **C4** — `AllocationChunkSize(x)` is monotone non-decreasing, always
`≥ x`, equals the least table entry `≥ x` whenever `x` is at most the
table's maximum (`0x8000000` bytes = 128 MiB), and for larger `x` rounds `x`
up to the least multiple of 4 MiB (`4 <<< 20` bytes) at or above it. -/
theorem c4_chunk_size : ∀ x y : Nat,
    (x ≤ y → AllocationChunkSize x ≤ AllocationChunkSize y) ∧
    x ≤ AllocationChunkSize x ∧
    (x ≤ 0x8000000 →
      AllocationChunkSize x ∈ sizes ∧
      ∀ s ∈ sizes, x ≤ s → AllocationChunkSize x ≤ s) ∧
    (0x8000000 < x →
      AllocationChunkSize x = alignUp x (4 <<< 20) ∧
      (4 <<< 20) ∣ AllocationChunkSize x ∧
      AllocationChunkSize x < x + (4 <<< 20)) := by
  have hpos : (0 : Nat) < 4 <<< 20 := by decide
  intro x y
  refine ⟨?_, ?_, ?_, ?_⟩
  · intro hxy
    cases hx : sizes.find? (fun t => Nat.ble x t) with
    | some sx =>
      rw [chunk_of_find?_some hx]
      cases hy : sizes.find? (fun t => Nat.ble y t) with
      | some sy =>
        rw [chunk_of_find?_some hy]
        obtain ⟨hysy, hmemy⟩ := find?_ble_some hy
        exact find?_ble_min sizes_sorted hx sy hmemy (le_trans hxy hysy)
      | none =>
        rw [chunk_of_find?_none hy]
        obtain ⟨_, hmemx⟩ := find?_ble_some hx
        have h1 := find?_ble_none hy sx hmemx
        have h2 := le_alignUp y hpos
        omega
    | none =>
      rw [chunk_of_find?_none hx]
      cases hy : sizes.find? (fun t => Nat.ble y t) with
      | some sy =>
        rw [chunk_of_find?_some hy]
        obtain ⟨hysy, hmemy⟩ := find?_ble_some hy
        have := find?_ble_none hx sy hmemy
        omega
      | none =>
        rw [chunk_of_find?_none hy]
        exact alignUp_mono _ hxy
  · exact chunk_ge x
  · intro hmax
    cases hx : sizes.find? (fun t => Nat.ble x t) with
    | some sx =>
      rw [chunk_of_find?_some hx]
      exact ⟨(find?_ble_some hx).2, find?_ble_min sizes_sorted hx⟩
    | none =>
      have := find?_ble_none hx 0x8000000 sizes_max_mem
      omega
  · intro hmax
    cases hx : sizes.find? (fun t => Nat.ble x t) with
    | some sx =>
      obtain ⟨hxs, hmem⟩ := find?_ble_some hx
      have := sizes_le_max sx hmem
      omega
    | none =>
      rw [chunk_of_find?_none hx]
      exact ⟨rfl, alignUp_dvd x _, alignUp_lt_add hpos⟩

/-- Witness for C4 at concrete inputs. -/
theorem c4_chunk_size_witness :
    AllocationChunkSize 100 ≤ AllocationChunkSize 200 ∧
    100 ≤ AllocationChunkSize 100 ∧
    AllocationChunkSize 100 ∈ sizes ∧
    AllocationChunkSize 0x9000000 = alignUp 0x9000000 (4 <<< 20) :=
  ⟨(c4_chunk_size 100 200).1 (by decide),
   (c4_chunk_size 100 200).2.1,
   ((c4_chunk_size 100 200).2.2.1 (by decide)).1,
   ((c4_chunk_size 0x9000000 0).2.2.2 (by decide)).1⟩

/-! ### C2 and C3: the compatibility tests use an any-bit intersection,
not the all-bits-present test the specification states -/

/-- **C2** — refuted on the code: `IsCompatible` tests
`(flags & property_flags) != 0`, a nonempty-intersection test, not "every
requested flag bit is present".  A block whose `property_flags` is
`HOST_VISIBLE` only (2) reports compatibility with a request for
`HOST_VISIBLE | HOST_COHERENT` (6), although `6 &&& 2 ≠ 6`. -/
theorem c2_iscompatible_bug :
    MemoryAllocation.IsCompatible ⟨2, 2, 4096, []⟩ 6 3 = true ∧
    Nat.land 6 2 ≠ 6 := by decide

/-- **C3** — refuted on the code: `FindType` accepts the first index whose
type flags merely intersect the requested flags
(`(type_flags & flags) != 0`), not a superset.  With a single memory type
whose flags are `DEVICE_LOCAL` (1) and a request for
`DEVICE_LOCAL | HOST_VISIBLE` (3), the code returns index 0 although
`1 &&& 3 ≠ 3`, where the claim demands an empty result. -/
theorem c3_findtype_bug :
    FindType [1] 3 1 = some 0 ∧ Nat.land 1 3 ≠ 3 := by decide

/-! ### C6: the flag degradation policy -/

theorem mpf_of_found {types : List Nat} {type_mask flags : Nat}
    (h : (FindType types flags type_mask).isSome) :
    MemoryPropertyFlags types type_mask flags = some flags := by
  rw [MemoryPropertyFlags]
  simp [h]

theorem mpf_drop_cached {types : List Nat} {type_mask flags : Nat}
    (hn : FindType types flags type_mask = none)
    (h8 : Nat.land flags VK_MEMORY_PROPERTY_HOST_CACHED_BIT ≠ 0) :
    MemoryPropertyFlags types type_mask flags =
      MemoryPropertyFlags types type_mask
        (flags - Nat.land flags VK_MEMORY_PROPERTY_HOST_CACHED_BIT) := by
  rw [MemoryPropertyFlags]
  simp [hn, h8]

theorem mpf_drop_local {types : List Nat} {type_mask flags : Nat}
    (hn : FindType types flags type_mask = none)
    (h8 : Nat.land flags VK_MEMORY_PROPERTY_HOST_CACHED_BIT = 0)
    (h1 : Nat.land flags VK_MEMORY_PROPERTY_DEVICE_LOCAL_BIT ≠ 0) :
    MemoryPropertyFlags types type_mask flags =
      MemoryPropertyFlags types type_mask
        (flags - Nat.land flags VK_MEMORY_PROPERTY_DEVICE_LOCAL_BIT) := by
  rw [MemoryPropertyFlags]
  simp [hn, h8, h1]

theorem mpf_unreachable {types : List Nat} {type_mask flags : Nat}
    (hn : FindType types flags type_mask = none)
    (h8 : Nat.land flags VK_MEMORY_PROPERTY_HOST_CACHED_BIT = 0)
    (h1 : Nat.land flags VK_MEMORY_PROPERTY_DEVICE_LOCAL_BIT = 0) :
    MemoryPropertyFlags types type_mask flags = none := by
  rw [MemoryPropertyFlags]
  simp [hn, h8, h1]

/-- **C6** — the flag-resolution function keeps the desired flags whenever
`FindType` (the code's compatibility test) finds a memory type for them;
otherwise it drops the host-cached bit and retries, then the device-local
bit and retries, in that order, and with no compatible type and neither
droppable bit set it reaches the fatal `UNREACHABLE_MSG` (modelled as
`none`). -/
theorem c6_flag_fallback (types : List Nat) (type_mask flags : Nat) :
    ((FindType types flags type_mask).isSome →
      MemoryPropertyFlags types type_mask flags = some flags) ∧
    (FindType types flags type_mask = none →
      Nat.land flags VK_MEMORY_PROPERTY_HOST_CACHED_BIT ≠ 0 →
      MemoryPropertyFlags types type_mask flags =
        MemoryPropertyFlags types type_mask
          (flags - Nat.land flags VK_MEMORY_PROPERTY_HOST_CACHED_BIT)) ∧
    (FindType types flags type_mask = none →
      Nat.land flags VK_MEMORY_PROPERTY_HOST_CACHED_BIT = 0 →
      Nat.land flags VK_MEMORY_PROPERTY_DEVICE_LOCAL_BIT ≠ 0 →
      MemoryPropertyFlags types type_mask flags =
        MemoryPropertyFlags types type_mask
          (flags - Nat.land flags VK_MEMORY_PROPERTY_DEVICE_LOCAL_BIT)) ∧
    (FindType types flags type_mask = none →
      Nat.land flags VK_MEMORY_PROPERTY_HOST_CACHED_BIT = 0 →
      Nat.land flags VK_MEMORY_PROPERTY_DEVICE_LOCAL_BIT = 0 →
      MemoryPropertyFlags types type_mask flags = none) :=
  ⟨mpf_of_found, mpf_drop_cached, mpf_drop_local, mpf_unreachable⟩

/-- Witness for C6: the first branch on a device whose single type is
host-visible only, the drop-host-cached branch, and the fatal branch on a
device with no types. -/
theorem c6_flag_fallback_witness :
    MemoryPropertyFlags [2] 1 14 = some 14 ∧
    MemoryPropertyFlags [] 1 6 = none ∧
    MemoryPropertyFlags [] 0 14 = MemoryPropertyFlags [] 0 6 :=
  ⟨(c6_flag_fallback [2] 1 14).1 (by decide),
   (c6_flag_fallback [] 1 6).2.2.2 (by decide) (by decide) (by decide),
   (c6_flag_fallback [] 0 14).2.1 (by decide) (by decide)⟩

/-! ### Facts about `FindType` and `MemoryPropertyFlags` feeding C5 -/

theorem findTypeFrom_some_props {flags type_mask : Nat} :
    ∀ (l : List Nat) (i t : Nat), findTypeFrom flags type_mask l i = some t →
      Nat.land type_mask (1 <<< t) ≠ 0 ∧ flags ≠ 0 := by
  intro l
  induction l with
  | nil => intro i t h; exact absurd h (by simp [findTypeFrom])
  | cons ty rest ih =>
    intro i t h
    unfold findTypeFrom at h
    by_cases hc : (Nat.land type_mask (1 <<< i) != 0) && (Nat.land ty flags != 0)
    · rw [if_pos hc] at h
      injection h with h
      subst h
      rcases Bool.and_eq_true .. |>.mp hc with ⟨hm, hf⟩
      refine ⟨by simpa using hm, ?_⟩
      rintro rfl
      rw [show Nat.land ty 0 = 0 from Nat.and_zero ty] at hf
      simp at hf
    · rw [if_neg hc] at h
      exact ih (i + 1) t h

theorem FindType_some_props {types : List Nat} {flags type_mask t : Nat}
    (h : FindType types flags type_mask = some t) :
    Nat.land type_mask (1 <<< t) ≠ 0 ∧ flags ≠ 0 :=
  findTypeFrom_some_props types 0 t h

theorem MemoryPropertyFlags_some_findType {types : List Nat} {type_mask : Nat} :
    ∀ flags g, MemoryPropertyFlags types type_mask flags = some g →
      (FindType types g type_mask).isSome := by
  intro flags
  induction flags using Nat.strong_induction_on with
  | _ flags ih =>
    intro g h
    rw [MemoryPropertyFlags] at h
    by_cases hfind : (FindType types flags type_mask).isSome
    · rw [if_pos (by simpa using hfind)] at h
      injection h with h
      subst h
      exact hfind
    · rw [if_neg (by simpa using hfind)] at h
      by_cases h8 : Nat.land flags VK_MEMORY_PROPERTY_HOST_CACHED_BIT ≠ 0
      · rw [dif_pos h8] at h
        have hf : flags ≠ 0 := by
          rintro rfl
          exact h8 (Nat.zero_and _)
        exact ih _ (Nat.sub_lt (Nat.pos_of_ne_zero hf) (Nat.pos_of_ne_zero h8)) g h
      · rw [dif_neg h8] at h
        by_cases h1 : Nat.land flags VK_MEMORY_PROPERTY_DEVICE_LOCAL_BIT ≠ 0
        · rw [dif_pos h1] at h
          have hf : flags ≠ 0 := by
            rintro rfl
            exact h1 (Nat.zero_and _)
          exact ih _ (Nat.sub_lt (Nat.pos_of_ne_zero hf) (Nat.pos_of_ne_zero h1)) g h
        · rw [dif_neg h1] at h
          exact absurd h (by simp)

/-! ### C9: `MemoryAllocation::Free` -/

theorem freeList_eq_none {l : List Range} {b : Nat} (h : ∀ r ∈ l, r.lo ≠ b) :
    freeList l b = none := by
  induction l with
  | nil => rfl
  | cons r rest ih =>
    unfold freeList
    rw [if_neg (h r (List.mem_cons_self r rest)), ih (fun y hy => h y (List.mem_cons_of_mem r hy))]
    rfl

theorem freeList_first {l1 l2 : List Range} {x : Range} {b : Nat}
    (hx : x.lo = b) (h1 : ∀ y ∈ l1, y.lo ≠ b) :
    freeList (l1 ++ x :: l2) b = some (l1 ++ l2) := by
  induction l1 with
  | nil =>
    simp only [List.nil_append]
    unfold freeList
    rw [if_pos hx]
  | cons y ys ih =>
    rw [List.cons_append]
    unfold freeList
    rw [if_neg (h1 y (List.mem_cons_self y ys)),
      ih (fun z hz => h1 z (List.mem_cons_of_mem y hz))]
    rfl

/-- **C9** — `Free(begin)` hits the fatal `ASSERT_MSG` (modelled `none`)
exactly when no stored range has that `begin`; when a unique range has it,
`Free` removes exactly that range and leaves every other range, and their
order, unchanged. -/
theorem c9_free (a : MemoryAllocation) (b : Nat) :
    ((∀ r ∈ a.commits, r.lo ≠ b) → a.Free b = none) ∧
    (∀ l1 x l2, a.commits = l1 ++ x :: l2 → x.lo = b →
      (∀ y ∈ l1, y.lo ≠ b) → (∀ y ∈ l2, y.lo ≠ b) →
      a.Free b = some { a with commits := l1 ++ l2 }) := by
  constructor
  · intro h
    unfold MemoryAllocation.Free
    rw [freeList_eq_none h]
    rfl
  · intro l1 x l2 hc hx h1 h2
    unfold MemoryAllocation.Free
    rw [hc, freeList_first hx h1]
    rfl

/-- Witness for C9 on a concrete Block holding `[0,4)` and `[8,12)`. -/
theorem c9_free_witness :
    MemoryAllocation.Free ⟨6, 2, 16, [⟨0, 4⟩, ⟨8, 12⟩]⟩ 8 =
      some ⟨6, 2, 16, [⟨0, 4⟩]⟩ ∧
    MemoryAllocation.Free ⟨6, 2, 16, [⟨0, 4⟩, ⟨8, 12⟩]⟩ 5 = none :=
  ⟨(c9_free ⟨6, 2, 16, [⟨0, 4⟩, ⟨8, 12⟩]⟩ 8).2 [⟨0, 4⟩] ⟨8, 12⟩ [] rfl rfl
      (by decide) (by decide),
   (c9_free ⟨6, 2, 16, [⟨0, 4⟩, ⟨8, 12⟩]⟩ 5).1 (by decide)⟩

/-! ### C7: alignment and capacity of the free-region search -/

theorem log2_two_pow (k : Nat) : Nat.log2 (2 ^ k) = k := by
  rw [Nat.log2_eq_log_two]
  exact Nat.log_pow Nat.one_lt_two k

theorem log2Fuel_eq_log2 : ∀ fuel n, n ≤ fuel → log2Fuel fuel n = Nat.log2 n := by
  intro fuel
  induction fuel with
  | zero =>
    intro n hn
    have : n = 0 := by omega
    subst this
    rw [Nat.log2]
    simp [log2Fuel]
  | succ f ih =>
    intro n hn
    rw [Nat.log2]
    unfold log2Fuel
    by_cases h2 : 2 ≤ n
    · rw [if_pos h2, if_pos h2, ih (n / 2) (by omega)]
    · rw [if_neg h2, if_neg h2]

theorem log2c_two_pow (k : Nat) : log2c (2 ^ k) = k := by
  rw [log2c, log2Fuel_eq_log2 _ _ (le_refl _), log2_two_pow]

theorem alignUpLog2_dvd (v k : Nat) : 2 ^ k ∣ alignUpLog2 v k := by
  rw [alignUpLog2_eq]
  exact alignUp_dvd v (2 ^ k)

theorem findLoop_basic {A size k : Nat} :
    ∀ (cs : List Range) (cand : Option Nat) (it c : Nat),
      (∀ c0, cand = some c0 → 2 ^ k ∣ c0 ∧ c0 + size ≤ A) →
      2 ^ k ∣ it →
      findLoop A size k cs cand it = some c →
      2 ^ k ∣ c ∧ c + size ≤ A := by
  intro cs
  induction cs with
  | nil =>
    intro cand it c hcand hit h
    unfold findLoop at h
    by_cases hcond : it + size ≤ A
    · rw [if_pos hcond] at h
      injection h with h
      rcases cand with _ | c0
      · rw [Option.getD_none] at h
        subst h
        exact ⟨hit, hcond⟩
      · rw [Option.getD_some] at h
        subst h
        exact hcand c0 rfl
    · rw [if_neg hcond] at h
      exact hcand c h
  | cons r rest ih =>
    intro cand it c hcand hit h
    unfold findLoop at h
    by_cases hcond : it + size ≤ A
    · rw [if_pos hcond] at h
      by_cases hcont : r.Contains (cand.getD it) size
      · rw [if_pos hcont] at h
        exact ih none _ c (by simp) (alignUpLog2_dvd r.hi k) h
      · rw [if_neg hcont] at h
        refine ih _ _ c ?_ (alignUpLog2_dvd r.hi k) h
        intro c0 hc0
        injection hc0 with hc0
        rcases cand with _ | c1
        · rw [Option.getD_none] at hc0
          subst hc0
          exact ⟨hit, hcond⟩
        · rw [Option.getD_some] at hc0
          subst hc0
          exact hcand c1 rfl
    · rw [if_neg hcond] at h
      exact hcand c h

/-- **C7** — a successful `MemoryAllocation::Commit(size, alignment)` with a
power-of-two alignment returns a range whose `begin` is a multiple of the
alignment and whose `end` does not exceed the block's `allocation_size`. -/
theorem c7_alignment_capacity (a : MemoryAllocation) (size alignment k b e : Nat)
    (a' : MemoryAllocation) (hpow : alignment = 2 ^ k)
    (h : a.Commit size alignment = some ((b, e), a')) :
    alignment ∣ b ∧ e ≤ a.allocation_size := by
  unfold MemoryAllocation.Commit at h
  cases hf : FindFreeRegion a.commits a.allocation_size size alignment with
  | none =>
    rw [hf] at h
    exact absurd h (by simp)
  | some c =>
    rw [hf] at h
    simp only [Option.some.injEq, Prod.mk.injEq] at h
    obtain ⟨⟨hb, he⟩, _⟩ := h
    rw [← hb, ← he]
    unfold FindFreeRegion at hf
    rw [hpow, log2c_two_pow] at hf
    have hr := findLoop_basic a.commits none 0 c (by simp) (dvd_zero _) hf
    rw [hpow]
    exact hr

/-- Witness for C7: committing 6 bytes at alignment 4 into a block of size
32 already holding `[0,4)` yields the range `[4,10)`. -/
theorem c7_alignment_capacity_witness :
    (4 : Nat) ∣ 4 ∧ 10 ≤ (MemoryAllocation.mk 6 2 32 [⟨0, 4⟩]).allocation_size :=
  c7_alignment_capacity ⟨6, 2, 32, [⟨0, 4⟩]⟩ 6 4 2 4 10
    ⟨6, 2, 32, [⟨0, 4⟩, ⟨4, 10⟩]⟩ (by decide) (by decide)

/-! ### C5: the grow-and-retry protocol of `MemoryAllocator::Commit` -/

theorem TryCommit_cons (a : MemoryAllocation) (rest : List MemoryAllocation)
    (req : VkMemoryRequirements) (flags : Nat) :
    TryCommit (a :: rest) req flags =
      (if a.IsCompatible flags req.memoryTypeBits then
        match a.Commit req.size req.alignment with
        | some (iv, a') => some (iv, a' :: rest)
        | none => (TryCommit rest req flags).map (fun p => (p.1, a :: p.2))
      else (TryCommit rest req flags).map (fun p => (p.1, a :: p.2))) := rfl

theorem TryCommit_append_of_none {l1 : List MemoryAllocation}
    (l2 : List MemoryAllocation) {req : VkMemoryRequirements} {flags : Nat}
    (h : TryCommit l1 req flags = none) :
    TryCommit (l1 ++ l2) req flags =
      (TryCommit l2 req flags).map (fun p => (p.1, l1 ++ p.2)) := by
  induction l1 with
  | nil =>
    rw [List.nil_append]
    cases htc : TryCommit l2 req flags with
    | none => rfl
    | some p => rfl
  | cons a rest ih =>
    rw [List.cons_append]
    rw [TryCommit_cons] at h ⊢
    by_cases hcomp : a.IsCompatible flags req.memoryTypeBits
    · rw [if_pos hcomp] at h ⊢
      cases hc : a.Commit req.size req.alignment with
      | some p =>
        obtain ⟨iv, a2⟩ := p
        rw [hc] at h
        exact absurd h (by simp)
      | none =>
        rw [hc] at h
        have hrest : TryCommit rest req flags = none := Option.map_eq_none'.mp h
        rw [ih hrest]
        cases TryCommit l2 req flags with
        | none => rfl
        | some q => rfl
    · rw [if_neg hcomp] at h ⊢
      have hrest : TryCommit rest req flags = none := Option.map_eq_none'.mp h
      rw [ih hrest]
      cases TryCommit l2 req flags with
      | none => rfl
      | some q => rfl

theorem TryCommit_fresh (req : VkMemoryRequirements) (flags t chunk : Nat)
    (hflags : flags ≠ 0)
    (hbit : Nat.land req.memoryTypeBits (1 <<< t) ≠ 0)
    (hsize : req.size ≤ chunk) :
    TryCommit [⟨flags, 1 <<< t, chunk, []⟩] req flags =
      some ((0, req.size), [⟨flags, 1 <<< t, chunk, [⟨0, req.size⟩]⟩]) := by
  have hcomp : MemoryAllocation.IsCompatible ⟨flags, 1 <<< t, chunk, []⟩
      flags req.memoryTypeBits = true := by
    unfold MemoryAllocation.IsCompatible
    dsimp only
    rw [show Nat.land flags flags = flags from Nat.and_self flags]
    simp [hflags, hbit]
  have hc : MemoryAllocation.Commit ⟨flags, 1 <<< t, chunk, []⟩
      req.size req.alignment =
      some ((0, 0 + req.size), ⟨flags, 1 <<< t, chunk, [⟨0, 0 + req.size⟩]⟩) := by
    unfold MemoryAllocation.Commit FindFreeRegion findLoop
    rw [if_pos (show 0 + req.size ≤ chunk by omega)]
    rfl
  rw [TryCommit_cons, if_pos hcomp, hc]
  simp [Nat.zero_add]

theorem MemoryAllocatorCommit_of_flags {types : List Nat}
    {allocs : List MemoryAllocation} {req : VkMemoryRequirements}
    {usage : MemoryUsage} {flags : Nat}
    (h1 : MemoryPropertyFlags types req.memoryTypeBits
      (MemoryUsagePropertyFlags usage) = some flags) :
    MemoryAllocatorCommit types allocs req usage =
      (match TryCommit allocs req flags with
      | some r => some r
      | none =>
          match AllocMemory types allocs flags req.memoryTypeBits
              (AllocationChunkSize req.size) with
          | none => none
          | some allocs' => TryCommit allocs' req flags) := by
  unfold MemoryAllocatorCommit
  rw [h1]

/-- **C5** — when the resolved flags admit no commit in any existing Block,
`MemoryAllocator::Commit` creates exactly one fresh Block, sized
`AllocationChunkSize(requirements.size)` which is `≥ requirements.size`, and
the single retry succeeds (at offset 0 of the fresh Block); the whole call
returns that commit rather than failing or attempting a third pass. -/
theorem c5_growth_retry (types : List Nat) (allocs : List MemoryAllocation)
    (req : VkMemoryRequirements) (usage : MemoryUsage) (flags : Nat)
    (h1 : MemoryPropertyFlags types req.memoryTypeBits
      (MemoryUsagePropertyFlags usage) = some flags)
    (h2 : TryCommit allocs req flags = none) :
    ∃ t, FindType types flags req.memoryTypeBits = some t ∧
      MemoryAllocatorCommit types allocs req usage =
        some ((0, req.size),
          allocs ++ [⟨flags, 1 <<< t, AllocationChunkSize req.size,
            [⟨0, req.size⟩]⟩]) ∧
      req.size ≤ AllocationChunkSize req.size := by
  have hsome := MemoryPropertyFlags_some_findType _ _ h1
  obtain ⟨t, ht⟩ := Option.isSome_iff_exists.mp hsome
  obtain ⟨hbit, hflags⟩ := FindType_some_props ht
  refine ⟨t, ht, ?_, chunk_ge req.size⟩
  rw [MemoryAllocatorCommit_of_flags h1, h2]
  simp only [AllocMemory, ht, Option.map_some']
  rw [TryCommit_append_of_none [⟨flags, 1 <<< t, AllocationChunkSize req.size, []⟩] h2,
    TryCommit_fresh req flags t (AllocationChunkSize req.size) hflags hbit
      (chunk_ge req.size)]
  rfl

/-- Witness for C5: an Upload request of 100 bytes against an empty Block
list on a device whose single memory type is host-visible|host-coherent. -/
theorem c5_growth_retry_witness :
    ∃ t, FindType [6] 6 1 = some t ∧
      MemoryAllocatorCommit [6] [] ⟨100, 4, 1⟩ .Upload =
        some ((0, 100),
          [] ++ [⟨6, 1 <<< t, AllocationChunkSize 100, [⟨0, 100⟩]⟩]) ∧
      (100 : Nat) ≤ AllocationChunkSize 100 :=
  c5_growth_retry [6] [] ⟨100, 4, 1⟩ .Upload 6
    (mpf_of_found (by decide)) rfl

/-! ### C8: the end-to-end example scenario

Device: type 0 = {device-local} (flags 1), type 1 =
{host-visible, host-coherent} (flags 6); request
`{size = 65536, alignment = 256, compatibleTypeMask = 0b11}` with Upload
usage.  The spec's claimed fresh-Block size 1,048,576 is wrong: the
smallest entry of the chunk-size table is `0x1000 << 10` = 4,194,304 bytes
(4 MiB), and that is the size of the Block the code creates. -/

/-- **C8, counterexample** — the first Upload commit of the scenario does
create exactly one Block at type 1, but its size is
`AllocationChunkSize 65536 = 4194304`, not the claimed 1,048,576. -/
theorem c8_counterexample :
    AllocationChunkSize 65536 = 4194304 ∧
    (4194304 : Nat) ≠ 1048576 ∧
    (MemoryAllocatorCommit [1, 6] [] ⟨65536, 256, 3⟩ .Upload).map
      (fun p => p.2.map (fun a => a.allocation_size)) = some [4194304] := by
  refine ⟨by decide, by decide, ?_⟩
  rw [MemoryAllocatorCommit_of_flags (mpf_of_found (by decide))]
  decide

/-- **C8, amended** — the full scenario with the corrected Block size:
resolved flags are {host-visible, host-coherent} (6); the first commit
creates one Block of size 4,194,304 at type 1 and returns `[0, 65536)`; a
second identical request returns `[65536, 131072)` in the same Block;
freeing the first commit and committing 65536 bytes again reuses offset
0. -/
theorem c8_scenario :
    MemoryPropertyFlags [1, 6] 3 6 = some 6 ∧
    MemoryAllocatorCommit [1, 6] [] ⟨65536, 256, 3⟩ .Upload =
      some ((0, 65536), [⟨6, 2, 4194304, [⟨0, 65536⟩]⟩]) ∧
    MemoryAllocatorCommit [1, 6] [⟨6, 2, 4194304, [⟨0, 65536⟩]⟩]
        ⟨65536, 256, 3⟩ .Upload =
      some ((65536, 131072),
        [⟨6, 2, 4194304, [⟨0, 65536⟩, ⟨65536, 131072⟩]⟩]) ∧
    MemoryAllocation.Free ⟨6, 2, 4194304, [⟨0, 65536⟩, ⟨65536, 131072⟩]⟩ 0 =
      some ⟨6, 2, 4194304, [⟨65536, 131072⟩]⟩ ∧
    MemoryAllocatorCommit [1, 6] [⟨6, 2, 4194304, [⟨65536, 131072⟩]⟩]
        ⟨65536, 256, 3⟩ .Upload =
      some ((0, 65536),
        [⟨6, 2, 4194304, [⟨0, 65536⟩, ⟨65536, 131072⟩]⟩]) := by
  refine ⟨mpf_of_found (by decide), ?_, ?_, by decide, ?_⟩
  · rw [MemoryAllocatorCommit_of_flags (mpf_of_found (by decide))]
    decide
  · rw [MemoryAllocatorCommit_of_flags (mpf_of_found (by decide))]
    decide
  · rw [MemoryAllocatorCommit_of_flags (mpf_of_found (by decide))]
    decide

/-! ### C1: non-overlap of the committed ranges of one Block

The inductive invariant: every stored range is either nonempty or the
degenerate `[0, 0)` (the only empty range a zero-sized commit can produce),
ranges are ordered by `begin` and consecutive in the disjoint sense, and
every `end` is within the block. -/

/-- A stored range is nonempty or the degenerate `[0, 0)`. -/
def wfR (r : Range) : Prop := r.lo < r.hi ∨ (r.lo = 0 ∧ r.hi = 0)

/-- Ordered-disjointness of two stored ranges (the second may be the
degenerate `[0, 0)`). -/
def ordR (r s : Range) : Prop :=
  r.lo ≤ s.lo ∧ (r.hi ≤ s.lo ∨ (s.lo = 0 ∧ s.hi = 0))

theorem contains_iff (r : Range) (c size : Nat) :
    r.Contains c size = true ↔ c < r.hi ∧ r.lo < c + size := by
  simp [Range.Contains]

theorem not_contains_iff (r : Range) (c size : Nat) :
    r.Contains c size = false ↔ r.hi ≤ c ∨ c + size ≤ r.lo := by
  rw [Bool.eq_false_iff, Ne, contains_iff]
  omega

/-- Where a successful search result can come from: it is the candidate the
loop started with, the iterator the loop started with, or an offset at or
after the `end` of some nonempty range of the scanned tail. -/
theorem findLoop_prov {A size k : Nat} :
    ∀ (cs : List Range) (cand : Option Nat) (it c : Nat),
      (∀ r ∈ cs, wfR r) →
      findLoop A size k cs cand it = some c →
      cand = some c ∨ (cand = none ∧ c = it) ∨
        ∃ r ∈ cs, r.lo < r.hi ∧ r.hi ≤ c := by
  intro cs
  induction cs with
  | nil =>
    intro cand it c _ h
    unfold findLoop at h
    by_cases hcond : it + size ≤ A
    · rw [if_pos hcond] at h
      injection h with h
      rcases cand with _ | c0
      · rw [Option.getD_none] at h
        exact Or.inr (Or.inl ⟨rfl, h.symm⟩)
      · rw [Option.getD_some] at h
        exact Or.inl (by rw [h])
    · rw [if_neg hcond] at h
      exact Or.inl h
  | cons r rest ih =>
    intro cand it c hwf h
    unfold findLoop at h
    by_cases hcond : it + size ≤ A
    · rw [if_pos hcond] at h
      by_cases hcont : r.Contains (cand.getD it) size
      · rw [if_pos hcont] at h
        have hr : r.lo < r.hi := by
          rcases hwf r (List.mem_cons_self r rest) with hlt | ⟨h0, h1⟩
          · exact hlt
          · rcases (contains_iff r _ size).mp hcont with ⟨hc1, _⟩
            omega
        rcases ih none _ c (fun s hs => hwf s (List.mem_cons_of_mem r hs)) h with
          h1 | ⟨_, h2⟩ | ⟨s, hs, hsw, hsc⟩
        · exact absurd h1 (by simp)
        · refine Or.inr (Or.inr ⟨r, List.mem_cons_self r rest, hr, ?_⟩)
          rw [h2, alignUpLog2_eq]
          exact le_alignUp _ (Nat.two_pow_pos k)
        · exact Or.inr (Or.inr ⟨s, List.mem_cons_of_mem r hs, hsw, hsc⟩)
      · rw [if_neg hcont] at h
        rcases ih (some (cand.getD it)) _ c
            (fun s hs => hwf s (List.mem_cons_of_mem r hs)) h with
          h1 | ⟨h2, _⟩ | ⟨s, hs, hsw, hsc⟩
        · injection h1 with h1
          rcases cand with _ | c1
          · rw [Option.getD_none] at h1
            exact Or.inr (Or.inl ⟨rfl, h1.symm⟩)
          · rw [Option.getD_some] at h1
            exact Or.inl (by rw [h1])
        · exact absurd h2 (by simp)
        · exact Or.inr (Or.inr ⟨s, List.mem_cons_of_mem r hs, hsw, hsc⟩)
    · rw [if_neg hcond] at h
      exact Or.inl h

/-- Soundness of the free-region search loop: under the structural
invariant on the scanned ranges, a successful result does not hit any of
them.  `cand`/`it` satisfy the conditions the loop maintains: a live
candidate is aligned, fits the block, and is separated from every nonempty
range still to be scanned either by lying wholly before it or by being at
or after the current iterator. -/
theorem findLoop_sound {A size k : Nat} :
    ∀ (cs : List Range) (cand : Option Nat) (it c : Nat),
      (∀ r ∈ cs, wfR r) →
      cs.Pairwise ordR →
      (∀ c0, cand = some c0 → 2 ^ k ∣ c0 ∧ c0 + size ≤ A) →
      (∀ c0, cand = some c0 → ∀ r ∈ cs, r.lo < r.hi →
        c0 + size ≤ r.lo ∨ it ≤ c0) →
      2 ^ k ∣ it →
      findLoop A size k cs cand it = some c →
      ∀ r ∈ cs, r.Contains c size = false := by
  intro cs
  induction cs with
  | nil =>
    intro cand it c _ _ _ _ _ _ r hr
    exact absurd hr (List.not_mem_nil r)
  | cons r rest ih =>
    intro cand it c hwf hpw hcand hsep hit h
    rcases List.pairwise_cons.mp hpw with ⟨hordr, hpwrest⟩
    have hwfrest : ∀ s ∈ rest, wfR s := fun s hs => hwf s (List.mem_cons_of_mem r hs)
    by_cases hcond : it + size ≤ A
    · unfold findLoop at h
      rw [if_pos hcond] at h
      have hc0 : 2 ^ k ∣ (cand.getD it) ∧ (cand.getD it) + size ≤ A := by
        rcases cand with _ | c1
        · rw [Option.getD_none]
          exact ⟨hit, hcond⟩
        · rw [Option.getD_some]
          exact hcand c1 rfl
      by_cases hcont : r.Contains (cand.getD it) size
      · rw [if_pos hcont] at h
        have hrest := ih none _ c hwfrest hpwrest (by simp) (by simp)
          (alignUpLog2_dvd r.hi k) h
        intro s hs
        rcases List.mem_cons.mp hs with rfl | hs'
        · rcases findLoop_prov rest none _ c hwfrest h with
            h1 | ⟨_, h2⟩ | ⟨u, hu, huw, huc⟩
          · exact absurd h1 (by simp)
          · rw [not_contains_iff]
            left
            rw [h2, alignUpLog2_eq]
            exact le_alignUp _ (Nat.two_pow_pos k)
          · rcases hordr u hu with ⟨_, hord | ⟨hu0, hu1⟩⟩
            · rw [not_contains_iff]
              left
              omega
            · exact absurd huw (by omega)
        · exact hrest s hs'
      · rw [if_neg hcont] at h
        have hcontf : r.Contains (cand.getD it) size = false :=
          Bool.eq_false_iff.mpr hcont
        rw [not_contains_iff] at hcontf
        have hwr : r.lo ≤ r.hi := by
          rcases hwf r (List.mem_cons_self r rest) with hlt | ⟨h0, h1⟩ <;> omega
        have hsep' : ∀ c1, some (cand.getD it) = some c1 → ∀ s ∈ rest,
            s.lo < s.hi → c1 + size ≤ s.lo ∨ alignUpLog2 r.hi k ≤ c1 := by
          intro c1 hc1 s hs hsw
          injection hc1 with hc1
          subst hc1
          rcases hcontf with hhi | hlo
          · right
            rw [alignUpLog2_eq]
            exact alignUp_le (Nat.two_pow_pos k) hc0.1 hhi
          · left
            rcases hordr s hs with ⟨_, hord | ⟨hs0, hs1⟩⟩
            · omega
            · omega
        have hrest := ih (some (cand.getD it)) _ c hwfrest hpwrest
          (fun c1 hc1 => by
            injection hc1 with hc1
            subst hc1
            exact hc0)
          hsep' (alignUpLog2_dvd r.hi k) h
        intro s hs
        rcases List.mem_cons.mp hs with rfl | hs'
        · rcases findLoop_prov rest (some (cand.getD it)) _ c hwfrest h with
            h1 | ⟨h2, _⟩ | ⟨u, hu, huw, huc⟩
          · injection h1 with h1
            rw [← h1]
            exact Bool.eq_false_iff.mpr hcont
          · exact absurd h2 (by simp)
          · rcases hordr u hu with ⟨_, hord | ⟨hu0, hu1⟩⟩
            · rw [not_contains_iff]
              left
              omega
            · exact absurd huw (by omega)
        · exact hrest s hs'
    · unfold findLoop at h
      rw [if_neg hcond] at h
      obtain ⟨hdvd, hA⟩ := hcand c h
      intro s hs
      rcases hwf s hs with hws | ⟨h0, h1⟩
      · rcases hsep c h s hs hws with hleft | hright
        · rw [not_contains_iff]
          omega
        · exact absurd hA (by omega)
      · rw [not_contains_iff]
        omega

theorem FindFreeRegion_sound {l : List Range} {A size alignment k c : Nat}
    (hwf : ∀ r ∈ l, wfR r) (hpw : l.Pairwise ordR) (hpow : alignment = 2 ^ k)
    (h : FindFreeRegion l A size alignment = some c) :
    2 ^ k ∣ c ∧ c + size ≤ A ∧ ∀ r ∈ l, r.Contains c size = false := by
  unfold FindFreeRegion at h
  rw [hpow, log2c_two_pow] at h
  obtain ⟨h1, h2⟩ := findLoop_basic l none 0 c (by simp) (dvd_zero _) h
  exact ⟨h1, h2, findLoop_sound l none 0 c hwf hpw (by simp) (by simp)
    (dvd_zero _) h⟩

/-- A zero-sized commit always lands at offset 0: the initial candidate 0
is never discarded, since `Contains(0, 0)` demands `begin < 0`. -/
theorem findLoop_zero_some {A k : Nat} :
    ∀ (cs : List Range) (it : Nat), findLoop A 0 k cs (some 0) it = some 0 := by
  intro cs
  induction cs with
  | nil =>
    intro it
    unfold findLoop
    split_ifs <;> rfl
  | cons r rest ih =>
    intro it
    unfold findLoop
    by_cases h : it + 0 ≤ A
    · rw [if_pos h, Option.getD_some,
        show r.Contains 0 0 = false from by simp [Range.Contains],
        if_neg (by simp)]
      exact ih _
    · rw [if_neg h]

theorem findFree_zero (l : List Range) (A alignment : Nat) :
    FindFreeRegion l A 0 alignment = some 0 := by
  unfold FindFreeRegion
  cases l with
  | nil =>
    unfold findLoop
    rw [if_pos (by omega)]
    rfl
  | cons r rest =>
    unfold findLoop
    rw [if_pos (by omega), Option.getD_none,
      show r.Contains 0 0 = false from by simp [Range.Contains]]
    exact findLoop_zero_some rest _

theorem mem_insertRange {l : List Range} {r x : Range}
    (h : x ∈ insertRange l r) : x = r ∨ x ∈ l := by
  induction l with
  | nil => simpa [insertRange] using h
  | cons y ys ih =>
    unfold insertRange at h
    by_cases hlt : r.lo < y.lo
    · rw [if_pos hlt] at h
      rcases List.mem_cons.mp h with rfl | h2
      · exact Or.inl rfl
      · exact Or.inr h2
    · rw [if_neg hlt] at h
      rcases List.mem_cons.mp h with rfl | h2
      · exact Or.inr (List.mem_cons_self x ys)
      · rcases ih h2 with h3 | h3
        · exact Or.inl h3
        · exact Or.inr (List.mem_cons_of_mem y h3)

theorem pairwise_insertRange {l : List Range} {r : Range}
    (hpw : l.Pairwise ordR)
    (h1 : ∀ x ∈ l, x.lo ≤ r.lo → ordR x r)
    (h2 : ∀ x ∈ l, r.lo < x.lo → ordR r x) :
    (insertRange l r).Pairwise ordR := by
  induction l with
  | nil => simpa [insertRange] using List.pairwise_singleton ordR r
  | cons y ys ih =>
    rcases List.pairwise_cons.mp hpw with ⟨hy, hys⟩
    unfold insertRange
    by_cases hlt : r.lo < y.lo
    · rw [if_pos hlt]
      refine List.pairwise_cons.mpr ⟨?_, hpw⟩
      intro z hz
      rcases List.mem_cons.mp hz with rfl | hz'
      · exact h2 z (List.mem_cons_self z ys) hlt
      · have hyz := hy z hz'
        exact h2 z (List.mem_cons_of_mem y hz')
          (by rcases hyz with ⟨hyz1, _⟩; omega)
    · rw [if_neg hlt]
      refine List.pairwise_cons.mpr
        ⟨?_, ih hys (fun x hx => h1 x (List.mem_cons_of_mem y hx))
          (fun x hx => h2 x (List.mem_cons_of_mem y hx))⟩
      intro z hz
      rcases mem_insertRange hz with rfl | hz'
      · exact h1 y (List.mem_cons_self y ys) (by omega)
      · exact hy z hz'

theorem freeList_sublist {b : Nat} :
    ∀ {l l' : List Range}, freeList l b = some l' → l'.Sublist l := by
  intro l
  induction l with
  | nil =>
    intro l' h
    exact absurd h (by simp [freeList])
  | cons r rest ih =>
    intro l' h
    unfold freeList at h
    by_cases hr : r.lo = b
    · rw [if_pos hr] at h
      injection h with h
      subst h
      exact List.sublist_cons_self r rest
    · rw [if_neg hr] at h
      cases hrest : freeList rest b with
      | none =>
        rw [hrest] at h
        exact absurd h (by simp)
      | some l2 =>
        rw [hrest] at h
        injection h with h
        subst h
        exact (ih hrest).cons₂ r

/-- The states one `MemoryAllocation` can reach from construction (empty
commit list) through successful `Commit` calls with power-of-two alignments
and successful `Free` calls. -/
inductive ReachableAlloc : MemoryAllocation → Prop where
  | init (pf smt sz : Nat) : ReachableAlloc ⟨pf, smt, sz, []⟩
  | commit (a : MemoryAllocation) (size alignment k : Nat) (iv : Nat × Nat)
      (a' : MemoryAllocation) :
      ReachableAlloc a → alignment = 2 ^ k →
      a.Commit size alignment = some (iv, a') → ReachableAlloc a'
  | free (a : MemoryAllocation) (b : Nat) (a' : MemoryAllocation) :
      ReachableAlloc a → a.Free b = some a' → ReachableAlloc a'

/-- The inductive invariant: every reachable commit list is well formed. -/
theorem reachable_WF {a : MemoryAllocation} (h : ReachableAlloc a) :
    (∀ r ∈ a.commits, wfR r ∧ r.hi ≤ a.allocation_size) ∧
    a.commits.Pairwise ordR := by
  induction h with
  | init pf smt sz => exact ⟨by simp, List.Pairwise.nil⟩
  | commit a size alignment k iv a2 hreach hpow hc ih =>
    obtain ⟨ihmem, ihpw⟩ := ih
    unfold MemoryAllocation.Commit at hc
    cases hf : FindFreeRegion a.commits a.allocation_size size alignment with
    | none =>
      rw [hf] at hc
      exact absurd hc (by simp)
    | some c =>
      rw [hf] at hc
      simp only [Option.some.injEq, Prod.mk.injEq] at hc
      obtain ⟨_, ha2⟩ := hc
      subst ha2
      obtain ⟨hdvd, hA, hnc⟩ :=
        FindFreeRegion_sound (fun r hr => (ihmem r hr).1) ihpw hpow hf
      have hzero : size = 0 → c = 0 := by
        intro hs
        subst hs
        have h0 := (findFree_zero a.commits a.allocation_size alignment).symm.trans hf
        injection h0 with h0
        omega
      constructor
      · intro r hr
        have hr' : r ∈ insertRange a.commits ⟨c, c + size⟩ := hr
        rcases mem_insertRange hr' with rfl | hmem
        · refine ⟨?_, hA⟩
          by_cases hs : size = 0
          · have hc0 := hzero hs
            right
            exact ⟨show c = 0 from hc0, show c + size = 0 by omega⟩
          · left
            show c < c + size
            omega
        · obtain ⟨hw, hcap⟩ := ihmem r hmem
          exact ⟨hw, hcap⟩
      · show (insertRange a.commits ⟨c, c + size⟩).Pairwise ordR
        apply pairwise_insertRange ihpw
        · intro x hx hxle
          have hxle' : x.lo ≤ c := hxle
          have hcf := (not_contains_iff x c size).mp (hnc x hx)
          rcases hcf with hhi | hlo
          · exact ⟨hxle', Or.inl hhi⟩
          · have hs : size = 0 := by omega
            have hc0 := hzero hs
            exact ⟨hxle', Or.inr ⟨show c = 0 from hc0, show c + size = 0 by omega⟩⟩
        · intro x hx hlt
          have hlt' : c < x.lo := hlt
          have hcf := (not_contains_iff x c size).mp (hnc x hx)
          have hwx := (ihmem x hx).1
          rcases hcf with hhi | hlo
          · rcases hwx with hne | ⟨h0, h1⟩
            · exact absurd hhi (by omega)
            · exact absurd hlt' (by omega)
          · exact ⟨le_of_lt hlt', Or.inl hlo⟩
  | free a b a2 hreach hfree ih =>
    obtain ⟨ihmem, ihpw⟩ := ih
    unfold MemoryAllocation.Free at hfree
    cases hfl : freeList a.commits b with
    | none =>
      rw [hfl] at hfree
      exact absurd hfree (by simp)
    | some l' =>
      rw [hfl] at hfree
      injection hfree with hfree
      subst hfree
      have hsub := freeList_sublist hfl
      constructor
      · intro r hr
        exact ihmem r (hsub.subset hr)
      · exact List.Pairwise.sublist hsub ihpw

/-- **C1** — along any sequence of successful `Commit` (with power-of-two
alignment) and `Free` operations on one Block, no two simultaneously stored
ranges share a point. -/
theorem c1_nonoverlap (a : MemoryAllocation) (h : ReachableAlloc a) :
    a.commits.Pairwise
      (fun r s => ¬ ∃ p : Nat, (r.lo ≤ p ∧ p < r.hi) ∧ (s.lo ≤ p ∧ p < s.hi)) := by
  refine (reachable_WF h).2.imp ?_
  intro r s hord
  rcases hord with ⟨_, hord2⟩
  rintro ⟨p, ⟨hp1, hp2⟩, hp3, hp4⟩
  rcases hord2 with hle | ⟨h0, h1⟩ <;> omega

/-- Witness for C1: two successive 4-byte commits at alignment 1 into a
16-byte block occupy `[0,4)` and `[4,8)`, which do not overlap. -/
theorem c1_nonoverlap_witness :
    (MemoryAllocation.mk 6 2 16 [⟨0, 4⟩, ⟨4, 8⟩]).commits.Pairwise
      (fun r s => ¬ ∃ p : Nat, (r.lo ≤ p ∧ p < r.hi) ∧ (s.lo ≤ p ∧ p < s.hi)) :=
  c1_nonoverlap ⟨6, 2, 16, [⟨0, 4⟩, ⟨4, 8⟩]⟩
    (ReachableAlloc.commit ⟨6, 2, 16, [⟨0, 4⟩]⟩ 4 1 0 (4, 8)
      ⟨6, 2, 16, [⟨0, 4⟩, ⟨4, 8⟩]⟩
      (ReachableAlloc.commit ⟨6, 2, 16, []⟩ 4 1 0 (0, 4) ⟨6, 2, 16, [⟨0, 4⟩]⟩
        (ReachableAlloc.init 6 2 16) (by decide) (by decide))
      (by decide) (by decide))

/-! ### C10: move semantics of `MemoryCommit`

A `MemoryCommit` is modelled by its allocator-relevant data: whether its
back-reference `allocation` is non-null, and `interval.first` (the `begin`
it would free).  A world is a list of commit-object slots (`none` =
destroyed) plus the log of `Free(begin)` calls issued to the owning Blocks;
`MemoryCommit::Release` appends `interval.first` to that log exactly when
the back-reference is non-null (the code does not null it afterwards).
The move constructor copies the fields and nulls the source's
back-reference (`std::exchange`); move assignment first runs `Release()` on
the destination, then copies and nulls.  Self-move-assignment is expressible
(`x = std::move(x)`) and is exactly what breaks the claim, so the step
relation carries a flag: `Step true` admits it, `Step false` does not. -/

/-- The allocator-relevant state of one `MemoryCommit`. -/
structure CommitObj where
  allocation : Bool
  lo : Nat
deriving DecidableEq, Repr

/-- Commit-object slots plus the log of issued `Free(begin)` calls. -/
structure World where
  objs : List (Option CommitObj)
  freedLog : List Nat
deriving DecidableEq, Repr

/-- The `begin` a live commit object would free, if its back-reference is
non-null. -/
def objLo : Option CommitObj → Option Nat
  | some c => if c.allocation then some c.lo else none
  | none => none

/-- The `begin`s currently owned by live commit objects. -/
def liveLos (w : World) : List Nat := w.objs.filterMap objLo

/-- `MemoryCommit::Release()`: `if (allocation) allocation->Free(interval.first)`. -/
def releaseLog (o : CommitObj) (log : List Nat) : List Nat :=
  if o.allocation then log ++ [o.lo] else log

/-- One move-constructor, move-assignment or destructor step.  The first
index is `true` when self-move-assignment is admitted. -/
inductive Step : Bool → World → World → Prop where
  | moveCtor (b : Bool) (pre post : List (Option CommitObj)) (s : CommitObj)
      (log : List Nat) :
      Step b ⟨pre ++ some s :: post, log⟩
        ⟨pre ++ some { s with allocation := false } :: post ++ [some s], log⟩
  | moveAssignL (b : Bool) (pre mid post : List (Option CommitObj))
      (d s : CommitObj) (log : List Nat) :
      Step b ⟨pre ++ some d :: mid ++ some s :: post, log⟩
        ⟨pre ++ some s :: mid ++ some { s with allocation := false } :: post,
          releaseLog d log⟩
  | moveAssignR (b : Bool) (pre mid post : List (Option CommitObj))
      (d s : CommitObj) (log : List Nat) :
      Step b ⟨pre ++ some s :: mid ++ some d :: post, log⟩
        ⟨pre ++ some { s with allocation := false } :: mid ++ some s :: post,
          releaseLog d log⟩
  | moveAssignSelf (pre post : List (Option CommitObj)) (d : CommitObj)
      (log : List Nat) :
      Step true ⟨pre ++ some d :: post, log⟩
        ⟨pre ++ some d :: post, releaseLog d log⟩
  | destroy (b : Bool) (pre post : List (Option CommitObj)) (d : CommitObj)
      (log : List Nat) :
      Step b ⟨pre ++ some d :: post, log⟩
        ⟨pre ++ none :: post, releaseLog d log⟩

/-- The multiset of all `begin`s: already freed ones plus those still owned
by live commit objects. -/
def totalM (w : World) : Multiset Nat :=
  (w.freedLog : Multiset Nat) + (liveLos w : Multiset Nat)

/-- Every non-self move step conserves `totalM`: a release moves the freed
`begin` from the live side to the log, and moves just shuffle ownership. -/
theorem step_totalM {w w' : World} (h : Step false w w') :
    totalM w' = totalM w := by
  cases h with
  | moveCtor b pre post s log =>
    by_cases hs : s.allocation <;>
      simp [totalM, liveLos, objLo, releaseLog, hs, List.filterMap_append,
        List.filterMap_cons, ← Multiset.coe_add, ← Multiset.cons_coe,
        ← Multiset.singleton_add] <;>
      abel
  | moveAssignL b pre mid post d s log =>
    by_cases hd : d.allocation <;> by_cases hs : s.allocation <;>
      simp [totalM, liveLos, objLo, releaseLog, hd, hs, List.filterMap_append,
        List.filterMap_cons, ← Multiset.coe_add, ← Multiset.cons_coe,
        ← Multiset.singleton_add] <;>
      abel
  | moveAssignR b pre mid post d s log =>
    by_cases hd : d.allocation <;> by_cases hs : s.allocation <;>
      simp [totalM, liveLos, objLo, releaseLog, hd, hs, List.filterMap_append,
        List.filterMap_cons, ← Multiset.coe_add, ← Multiset.cons_coe,
        ← Multiset.singleton_add] <;>
      abel
  | destroy b pre post d log =>
    by_cases hd : d.allocation <;>
      simp [totalM, liveLos, objLo, releaseLog, hd, List.filterMap_append,
        List.filterMap_cons, ← Multiset.coe_add, ← Multiset.cons_coe,
        ← Multiset.singleton_add] <;>
      abel

theorem steps_totalM {w w' : World}
    (h : Relation.ReflTransGen (Step false) w w') : totalM w' = totalM w := by
  induction h with
  | refl => rfl
  | tail h1 h2 ih => exact (step_totalM h2).trans ih

/-- **C10, counterexample** — the claim fails for self-move-assignment:
`x = std::move(x)` runs `Release()` (freeing `x`'s range) but leaves
`allocation` non-null (`std::exchange` reads it back), so the subsequent
destructor frees the same `begin` again: starting from a single live commit
owning `begin = 0` (a valid state, last conjunct), the log ends as `[0, 0]`
— the range is freed twice. -/
theorem c10_counterexample :
    Relation.ReflTransGen (Step true)
      ⟨[some ⟨true, 0⟩], []⟩ ⟨[none], [0, 0]⟩ ∧
    ¬ ([0, 0] : List Nat).Nodup ∧
    (([] : List Nat) ++ liveLos ⟨[some ⟨true, 0⟩], []⟩).Nodup := by
  refine ⟨?_, by decide, by decide⟩
  have s1 : Step true ⟨[some ⟨true, 0⟩], []⟩ ⟨[some ⟨true, 0⟩], [0]⟩ :=
    Step.moveAssignSelf [] [] ⟨true, 0⟩ []
  have s2 : Step true ⟨[some ⟨true, 0⟩], [0]⟩ ⟨[none], [0, 0]⟩ :=
    Step.destroy true [] [] ⟨true, 0⟩ [0]
  exact (Relation.ReflTransGen.single s1).tail s2

/-- **C10, amended** — along any sequence of move constructions, move
assignments *between distinct objects*, and destructions, starting from a
state whose freed log and live `begin`s are jointly duplicate-free, every
committed range is freed at most once (the freed log stays duplicate-free);
and destroying or releasing a moved-from commit (null back-reference) frees
nothing. -/
theorem c10_moves (w w' : World)
    (h0 : (w.freedLog ++ liveLos w).Nodup)
    (hsteps : Relation.ReflTransGen (Step false) w w') :
    w'.freedLog.Nodup ∧
    (∀ (b : Bool) (pre post : List (Option CommitObj)) (o : CommitObj)
      (log : List Nat), o.allocation = false →
      Step b ⟨pre ++ some o :: post, log⟩ ⟨pre ++ none :: post, log⟩) := by
  constructor
  · have htot : totalM w' = totalM w := steps_totalM hsteps
    have h0m : (totalM w).Nodup := by
      unfold totalM
      rw [Multiset.coe_add]
      exact Multiset.coe_nodup.mpr h0
    have h1m : (totalM w').Nodup := htot ▸ h0m
    have hle : (↑w'.freedLog : Multiset Nat) ≤ totalM w' :=
      Multiset.le_add_right _ _
    exact Multiset.coe_nodup.mp (Multiset.nodup_of_le hle h1m)
  · intro b pre post o log ho
    have hrel : releaseLog o log = log := by simp [releaseLog, ho]
    have hd := Step.destroy b pre post o log
    rw [hrel] at hd
    exact hd

/-- Witness for C10: a single move assignment between two distinct live
commits releases the destination's old range once; the resulting log `[0]`
is duplicate-free. -/
theorem c10_moves_witness :
    (World.mk [some ⟨true, 4⟩, some ⟨false, 4⟩] [0]).freedLog.Nodup :=
  (c10_moves ⟨[some ⟨true, 0⟩, some ⟨true, 4⟩], []⟩
    ⟨[some ⟨true, 4⟩, some ⟨false, 4⟩], [0]⟩ (by decide)
    (Relation.ReflTransGen.single
      (Step.moveAssignL false [] [] [] ⟨true, 0⟩ ⟨true, 4⟩ []))).1

end VMA
